import Mathlib

/-!
Verification of the ris-control repository: a shallow embedding of
`environment.py` (RisProtocolEnv: pointing, pos2beta, compute_afgain, ecdf)
and of the script `cb_bsw_flexible_vs_minimum_snr.py` (DFT codebook,
beam-sweep search, pilot noise, pre-log rate accounting), with theorems
settling the frozen specification claims.
-/

namespace RisControl

/-- Componentwise dot product of two 3-vectors, as `a @ b` on shape-(3,) arrays. -/
def dot3 (a b : ℝ × ℝ × ℝ) : ℝ := a.1 * b.1 + a.2.1 * b.2.1 + a.2.2 * b.2.2

/-- Euclidean norm of a 3-vector, as `np.linalg.norm(x, axis=-1)` on a row. -/
noncomputable def norm3 (a : ℝ × ℝ × ℝ) : ℝ :=
  Real.sqrt (a.1 ^ 2 + a.2.1 ^ 2 + a.2.2 ^ 2)

/-! ## ecdf (environment.py lines 212-225)

`np.unique(a, return_counts=True)` returns the sorted distinct values of `a`
together with their multiplicities; `np.cumsum` forms running sums; the code
then divides by the last running sum.  The `asnumpy` fallback is a host
transfer that does not change any value, so it is not modelled. -/

/-- Insert a value into a strictly sorted list, keeping it strictly sorted:
duplicates are dropped. -/
def insertUnique (v : ℚ) : List ℚ → List ℚ
  | [] => [v]
  | w :: l => if v = w then w :: l else if v < w then v :: w :: l else w :: insertUnique v l

/-- Sorted distinct values of a list, as the first output of `np.unique`. -/
def uniqueVals (a : List ℚ) : List ℚ := a.foldr insertUnique []

/-- Multiplicities of the sorted distinct values, as `return_counts=True`. -/
def uniqueCounts (a : List ℚ) : List ℕ := (uniqueVals a).map (fun v => a.count v)

/-- Running sums with accumulator, mirroring `np.cumsum`. -/
def cumsumFrom (acc : ℕ) : List ℕ → List ℕ
  | [] => []
  | c :: l => (acc + c) :: cumsumFrom (acc + c) l

/-- Model of `np.cumsum`: the list of prefix sums. -/
def cumsum (l : List ℕ) : List ℕ := cumsumFrom 0 l

/-- The function `ecdf(a)` from environment.py: sorted unique values paired with the
cumulative counts divided by the final cumulative count (`cusum / cusum[-1]`). -/
def ecdf (a : List ℚ) : List ℚ × List ℚ :=
  let x := uniqueVals a
  let cusum := cumsum (uniqueCounts a)
  (x, cusum.map (fun c => (c : ℚ) / ((cusum.getLastD 0 : ℕ) : ℚ)))

/-! ### Lemmas about uniqueVals / cumsum -/

lemma mem_insertUnique {x v : ℚ} {l : List ℚ} :
    x ∈ insertUnique v l ↔ x = v ∨ x ∈ l := by
  induction l with
  | nil => simp [insertUnique]
  | cons w l ih =>
    by_cases h1 : v = w
    · subst h1; simp [insertUnique]
    · by_cases h2 : v < w
      · simp [insertUnique, h1, h2]
      · simp [insertUnique, h1, h2, ih]
        tauto

lemma sorted_insertUnique {v : ℚ} {l : List ℚ} (h : l.Sorted (· < ·)) :
    (insertUnique v l).Sorted (· < ·) := by
  induction l with
  | nil => simp [insertUnique]
  | cons w l ih =>
    rw [List.sorted_cons] at h
    obtain ⟨hw, hl⟩ := h
    by_cases h1 : v = w
    · subst h1
      simpa [insertUnique] using List.sorted_cons.mpr ⟨hw, hl⟩
    · by_cases h2 : v < w
      · rw [insertUnique]
        simp only [h1, h2, if_true, if_false]
        refine List.sorted_cons.mpr ⟨?_, List.sorted_cons.mpr ⟨hw, hl⟩⟩
        intro b hb
        rcases List.mem_cons.mp hb with hb | hb
        · exact hb ▸ h2
        · exact lt_trans h2 (hw b hb)
      · have h3 : w < v := lt_of_le_of_ne (not_lt.mp h2) (Ne.symm h1)
        rw [insertUnique]
        simp only [h1, h2, if_false]
        refine List.sorted_cons.mpr ⟨?_, ih hl⟩
        intro b hb
        rcases mem_insertUnique.mp hb with hb | hb
        · exact hb ▸ h3
        · exact hw b hb

lemma uniqueVals_sorted (a : List ℚ) : (uniqueVals a).Sorted (· < ·) := by
  induction a with
  | nil => simp [uniqueVals]
  | cons x a ih => exact sorted_insertUnique ih

lemma mem_uniqueVals {x : ℚ} {a : List ℚ} : x ∈ uniqueVals a ↔ x ∈ a := by
  induction a with
  | nil => simp [uniqueVals]
  | cons y a ih =>
    show x ∈ insertUnique y (uniqueVals a) ↔ _
    rw [mem_insertUnique, ih]
    simp

lemma uniqueVals_nodup (a : List ℚ) : (uniqueVals a).Nodup :=
  (uniqueVals_sorted a).nodup

lemma uniqueVals_toFinset (a : List ℚ) : (uniqueVals a).toFinset = a.toFinset := by
  ext x
  simp [mem_uniqueVals]

lemma uniqueCounts_sum (a : List ℚ) : (uniqueCounts a).sum = a.length := by
  rw [uniqueCounts, ← List.sum_toFinset _ (uniqueVals_nodup a), uniqueVals_toFinset]
  exact List.sum_toFinset_count_eq_length a

lemma cumsumFrom_getLastD (l : List ℕ) (h : l ≠ []) :
    ∀ acc d, (cumsumFrom acc l).getLastD d = acc + l.sum := by
  induction l with
  | nil => exact absurd rfl h
  | cons c l ih =>
    intro acc d
    cases l with
    | nil => simp [cumsumFrom]
    | cons e l =>
      show ((acc + c) :: cumsumFrom (acc + c) (e :: l)).getLastD d = _
      rw [List.getLastD_cons, ih (by simp)]
      simp [List.sum_cons]
      omega

lemma cumsum_getLastD (l : List ℕ) (h : l ≠ []) (d : ℕ) :
    (cumsum l).getLastD d = l.sum := by
  rw [cumsum, cumsumFrom_getLastD l h 0 d]
  omega

/-- Claim C9: for every non-empty input, `ecdf` returns the sorted deduplicated
values paired with the cumulative counts normalized by the total count; in
particular on `[1, 1, 2, 3, 3, 3]` it returns values `[1, 2, 3]` with
cumulative probabilities `[2/6, 3/6, 6/6]`.  The function is pure: it is a
plain function of its input. -/
theorem ecdf_spec :
    (∀ a : List ℚ, a ≠ [] →
      (ecdf a).1.Sorted (· < ·) ∧ (ecdf a).1.Nodup ∧
        (∀ v, v ∈ (ecdf a).1 ↔ v ∈ a) ∧
        (ecdf a).2 = (cumsum (uniqueCounts a)).map
          (fun c => (c : ℚ) / ((a.length : ℕ) : ℚ))) ∧
    ecdf [1, 1, 2, 3, 3, 3] = ([1, 2, 3], [2/6, 3/6, 6/6]) := by
  constructor
  · intro a ha
    have hvals : (ecdf a).1 = uniqueVals a := rfl
    have hcounts_ne : uniqueCounts a ≠ [] := by
      obtain ⟨x, a', rfl⟩ := List.exists_cons_of_ne_nil ha
      have hx : x ∈ uniqueVals (x :: a') := mem_uniqueVals.mpr (List.mem_cons_self x a')
      have : uniqueVals (x :: a') ≠ [] := List.ne_nil_of_mem hx
      simpa [uniqueCounts] using this
    refine ⟨hvals ▸ uniqueVals_sorted a, hvals ▸ uniqueVals_nodup a,
      fun v => hvals ▸ mem_uniqueVals, ?_⟩
    have hlast : (cumsum (uniqueCounts a)).getLastD 0 = a.length := by
      rw [cumsum_getLastD _ hcounts_ne, uniqueCounts_sum]
    have hdef : (ecdf a).2 = (cumsum (uniqueCounts a)).map
        (fun c => (c : ℚ) / (((cumsum (uniqueCounts a)).getLastD 0 : ℕ) : ℚ)) := rfl
    rw [hdef, hlast]
  · norm_num [ecdf, uniqueVals, insertUnique, uniqueCounts, cumsum, cumsumFrom,
      List.count_cons, List.count_nil]

/-- Witness for claim C9 at the concrete input `[1]`. -/
theorem ecdf_spec_witness :
    ([1] : List ℚ) ≠ [] ∧ (ecdf [1]).1.Sorted (· < ·) :=
  ⟨by decide, (ecdf_spec.1 [1] (by decide)).1⟩

/-! ## Beam-sweep search (cb_bsw_flexible_vs_minimum_snr.py lines 129-149)

Per user `uu` and threshold `minimum_snr` the script computes
`mask = snr_cb_noisy[uu] >= minimum_snr`; if `sum(mask) == 0` it skips the
user (`continue`), leaving the preinitialized zeros in `rate_flex` and
`n_configurations_flex`; otherwise `index = np.argmax(mask)` is the position
of the first `True`, and it stores `log2(1 + minimum_snr)` and `index + 1`.
The search is modelled generically over a linear order so that it can be
evaluated on exact rationals; the script runs it on floating-point data. -/

/-- The boolean mask `snr >= minimum_snr`, elementwise over the codebook. -/
def mask {α : Type} [LinearOrder α] (snr : List α) (t : α) : List Bool :=
  snr.map (fun s => decide (t ≤ s))

/-- Model of `np.argmax` on a boolean vector: index of the first `True`, and 0 when all
entries are `False` (first occurrence of the maximum). -/
def argmaxBool (l : List Bool) : ℕ := if l.any id then l.findIdx id else 0

/-- The value stored in `n_configurations_flex[ms, uu]`: 0 when no
configuration clears the threshold, else `argmax(mask) + 1`. -/
def nConfFlexEntry {α : Type} [LinearOrder α] (snr : List α) (t : α) : ℕ :=
  if (mask snr t).count true = 0 then 0 else argmaxBool (mask snr t) + 1

/-- The value stored in `rate_flex[ms, uu]`: 0 when no configuration clears
the threshold, else `np.log2(1 + minimum_snr)`. -/
noncomputable def rateFlexEntry (snr : List ℝ) (t : ℝ) : ℝ :=
  if (mask snr t).count true = 0 then 0 else Real.logb 2 (1 + t)

/-! ### Lemmas about findIdx and the mask -/

lemma findIdx_map {α β : Type} (f : α → β) (p : β → Bool) :
    ∀ l : List α, (l.map f).findIdx p = l.findIdx (fun a => p (f a)) := by
  intro l
  induction l with
  | nil => rfl
  | cons a l ih => simp [List.findIdx_cons, ih]

lemma findIdx_eq_of_first {α : Type} (p : α → Bool) :
    ∀ (l : List α) (i : ℕ) (hi : i < l.length), p (l.get ⟨i, hi⟩) = true →
      (∀ j (hj : j < l.length), j < i → p (l.get ⟨j, hj⟩) = false) →
      l.findIdx p = i := by
  intro l
  induction l with
  | nil => intro i hi; exact absurd hi (Nat.not_lt_zero i)
  | cons a l ih =>
    intro i hi hhit hbefore
    cases i with
    | zero => simp only [List.get] at hhit; simp [List.findIdx_cons, hhit]
    | succ i =>
      have ha : p a = false := hbefore 0 (Nat.succ_pos _) (Nat.succ_pos i)
      have htail := ih i (Nat.lt_of_succ_lt_succ hi) hhit
        (fun j hj hji => hbefore (j + 1) (Nat.succ_lt_succ hj) (Nat.succ_lt_succ hji))
      simp [List.findIdx_cons, ha, htail]

lemma mask_count_eq_zero_iff {α : Type} [LinearOrder α] (snr : List α) (t : α) :
    (mask snr t).count true = 0 ↔ ∀ s ∈ snr, s < t := by
  simp [mask, List.count_eq_zero, List.mem_map, not_le]

lemma findIdx_le_of_imp {α : Type} (p q : α → Bool)
    (h : ∀ a, q a = true → p a = true) :
    ∀ l : List α, (∃ a ∈ l, q a = true) → l.findIdx p ≤ l.findIdx q := by
  intro l
  induction l with
  | nil => intro hex; simp at hex
  | cons a l ih =>
    intro hex
    cases hq : q a with
    | true => simp [List.findIdx_cons, hq, h a hq]
    | false =>
      cases hp : p a with
      | true => simp [List.findIdx_cons, hp]
      | false =>
        have hex' : ∃ b ∈ l, q b = true := by
          obtain ⟨b, hb, hbq⟩ := hex
          rcases List.mem_cons.mp hb with rfl | hb
          · exact absurd hbq (by simp [hq])
          · exact ⟨b, hb, hbq⟩
        simpa [List.findIdx_cons, hp, hq] using Nat.succ_le_succ (ih hex')

/-- Claim C2: for every user, threshold and fixed noisy-SNR vector, the sweep
selects the first configuration index whose noisy SNR is at least the
threshold, recording that index plus one as the configuration count and
`log2(1 + threshold)` as the rate; when no configuration clears the
threshold it records exactly zero rate and zero count (the `continue`
branch), raising no error. -/
theorem beamSweep_first_hit :
    (∀ (snr : List ℝ) (t : ℝ) (i : ℕ) (hi : i < snr.length),
        t ≤ snr.get ⟨i, hi⟩ →
        (∀ j (hj : j < snr.length), j < i → snr.get ⟨j, hj⟩ < t) →
        nConfFlexEntry snr t = i + 1 ∧ rateFlexEntry snr t = Real.logb 2 (1 + t)) ∧
    (∀ (snr : List ℝ) (t : ℝ),
        (∀ j (hj : j < snr.length), snr.get ⟨j, hj⟩ < t) →
        nConfFlexEntry snr t = 0 ∧ rateFlexEntry snr t = 0) := by
  constructor
  · intro snr t i hi hhit hbefore
    have hmem : true ∈ mask snr t := by
      simp only [mask, List.mem_map]
      exact ⟨snr.get ⟨i, hi⟩, List.get_mem snr i hi, by simpa using hhit⟩
    have hcount : (mask snr t).count true ≠ 0 := by
      simpa [List.count_eq_zero] using hmem
    have hany : (mask snr t).any id = true := by
      rw [List.any_eq_true]
      exact ⟨true, hmem, rfl⟩
    have hfind : (mask snr t).findIdx id = i := by
      rw [mask, findIdx_map]
      exact findIdx_eq_of_first _ snr i hi (by simpa using hhit)
        (fun j hj hji => by simpa using not_le.mpr (hbefore j hj hji))
    constructor
    · rw [nConfFlexEntry, if_neg hcount, argmaxBool, if_pos hany, hfind]
    · rw [rateFlexEntry, if_neg hcount]
  · intro snr t hall
    have hcount : (mask snr t).count true = 0 := by
      rw [mask_count_eq_zero_iff]
      intro s hs
      obtain ⟨⟨j, hj⟩, rfl⟩ := List.mem_iff_get.mp hs
      exact hall j hj
    exact ⟨by rw [nConfFlexEntry, if_pos hcount], by rw [rateFlexEntry, if_pos hcount]⟩

/-- Witness for claim C2: a one-configuration codebook with SNR 1 and
threshold 0 selects index 0 and records count 1 and rate `log2(1 + 0)`. -/
theorem beamSweep_first_hit_witness :
    nConfFlexEntry [(1 : ℝ)] 0 = 0 + 1 ∧
      rateFlexEntry [(1 : ℝ)] 0 = Real.logb 2 (1 + 0) := by
  refine beamSweep_first_hit.1 [(1 : ℝ)] 0 0 (by norm_num) ?_ ?_
  · show (0 : ℝ) ≤ 1
    norm_num
  · intro j hj hj0
    exact absurd hj0 (Nat.not_lt_zero j)

/-- Claim C5, counterexample: with the single-configuration noisy-SNR vector
`[5]`, threshold 3 records a sweep count of 1 but the larger threshold 10
records the zero sentinel, so raising the threshold from 3 to 10 strictly
decreases the recorded value of `n_configurations_flex`. -/
theorem nConf_monotone_counterexample :
    (3 : ℚ) ≤ 10 ∧
      nConfFlexEntry [(5 : ℚ)] 10 < nConfFlexEntry [(5 : ℚ)] 3 := by decide

/-- Claim C5, amended: for a fixed noisy-SNR vector and thresholds
`t1 ≤ t2`, whenever some configuration still clears the larger threshold
`t2` (the recorded count at `t2` is nonzero), the count recorded at `t2` is
at least the count recorded at `t1`; when no configuration clears `t2` the
code records the zero sentinel, which can be smaller. -/
theorem nConf_monotone_of_hit {α : Type} [LinearOrder α]
    (snr : List α) (t1 t2 : α) (h12 : t1 ≤ t2)
    (hhit : nConfFlexEntry snr t2 ≠ 0) :
    nConfFlexEntry snr t1 ≤ nConfFlexEntry snr t2 := by
  have hcount2 : (mask snr t2).count true ≠ 0 := by
    intro h0
    exact hhit (by rw [nConfFlexEntry, if_pos h0])
  have hex2 : ∃ s ∈ snr, decide (t2 ≤ s) = true := by
    have : true ∈ mask snr t2 := by
      by_contra hmem
      exact hcount2 (List.count_eq_zero.mpr hmem)
    simpa [mask, List.mem_map] using this
  have himp : ∀ s, decide (t2 ≤ s) = true → decide (t1 ≤ s) = true := by
    intro s hs
    simpa using le_trans h12 (by simpa using hs)
  have hcount1 : (mask snr t1).count true ≠ 0 := by
    obtain ⟨s, hsmem, hs⟩ := hex2
    have : true ∈ mask snr t1 := by
      simp only [mask, List.mem_map]
      exact ⟨s, hsmem, (himp s hs).symm ▸ rfl⟩
    simpa [List.count_eq_zero] using this
  have hany1 : (mask snr t1).any id = true := by
    rw [List.any_eq_true]
    refine ⟨true, ?_, rfl⟩
    by_contra hmem
    exact hcount1 (List.count_eq_zero.mpr hmem)
  have hany2 : (mask snr t2).any id = true := by
    rw [List.any_eq_true]
    refine ⟨true, ?_, rfl⟩
    by_contra hmem
    exact hcount2 (List.count_eq_zero.mpr hmem)
  have hfind : (mask snr t1).findIdx id ≤ (mask snr t2).findIdx id := by
    rw [mask, mask, findIdx_map, findIdx_map]
    exact findIdx_le_of_imp _ _ himp snr hex2
  rw [nConfFlexEntry, nConfFlexEntry, if_neg hcount1, if_neg hcount2,
    argmaxBool, argmaxBool, if_pos hany1, if_pos hany2]
  omega

/-- Witness for the amended claim C5 at a concrete input. -/
theorem nConf_monotone_of_hit_witness :
    (3 : ℚ) ≤ 3 ∧ nConfFlexEntry [(5 : ℚ)] 3 ≠ 0 ∧
      nConfFlexEntry [(5 : ℚ)] 3 ≤ nConfFlexEntry [(5 : ℚ)] 3 :=
  ⟨by decide, by decide, nConf_monotone_of_hit [(5 : ℚ)] 3 3 (by decide) (by decide)⟩

/-! ## Pre-log / rate accounting (cb_bsw_flexible_vs_minimum_snr.py lines 166-179)

`tau_setup` is `T`, `2 * T` or `3 * T` depending on the setup name;
`tau_alg = (2 * n_configurations_flex - 1) * T`;
`prelog_term = 1 - (tau_setup + tau_setup + tau_alg) / total_tau`;
`rate_cb_bsw = prelog_term * rate_flex`. -/

/-- The three training-overhead protocol variants 'ob-cc', 'ib-no', 'ib-wf'. -/
inductive Setup
  | obCC
  | ibNO
  | ibWF

/-- Fixed signaling overhead per setup. -/
noncomputable def tauSetup : Setup → ℝ → ℝ
  | .obCC, T => T
  | .ibNO, T => 2 * T
  | .ibWF, T => 3 * T

/-- Sweep overhead duration `tau_alg` charged for a recorded sweep count `n`. -/
noncomputable def tauAlg (n T : ℝ) : ℝ := (2 * n - 1) * T

/-- The quantity `prelog_term`, the fraction of the coherence time left for data. -/
noncomputable def prelogTerm (s : Setup) (T totalTau n : ℝ) : ℝ :=
  1 - (tauSetup s T + tauSetup s T + tauAlg n T) / totalTau

/-- The effective rate `rate_cb_bsw`: pre-log term times the stored rate. -/
noncomputable def rateCbBsw (s : Setup) (T totalTau n r : ℝ) : ℝ :=
  prelogTerm s T totalTau n * r

/-- Claim C7, counterexample: with setup 'ob-cc', `T = 1`, coherence time 10,
sweep count 2 and threshold 1 (rate `log2(1 + 1)`), the code computes
`(1 - (1 + 1 + 3)/10) * 1 = 1/2`, not the claimed
`(1 - (tau_setup + n*T)/10) * log2(1+1) = 7/10`: the code charges
`(2n - 1)` periods, not one period per recorded sweep, and it subtracts the
fixed setup overhead twice. -/
theorem rateCbBsw_counterexample :
    rateCbBsw Setup.obCC 1 10 2 (Real.logb 2 (1 + 1)) ≠
      (1 - (tauSetup Setup.obCC 1 + 2 * 1) / 10) * Real.logb 2 (1 + 1) := by
  have h2 : Real.logb 2 (1 + 1) = 1 := by
    rw [show (1 : ℝ) + 1 = 2 by norm_num]
    exact Real.logb_self_eq_one (by norm_num)
  rw [rateCbBsw, prelogTerm, tauAlg, h2]
  norm_num [tauSetup]

/-- Claim C7, amended: the rate-accounting step charges `(2n - 1)` TTI-like
periods `T` for a recorded sweep count `n` (two periods per swept
configuration, minus one), subtracts this overhead plus twice the setup's
fixed signaling overhead from the total coherence time, and multiplies the
resulting fraction of the coherence time by the stored rate
`log2(1 + threshold)`. -/
theorem rateCbBsw_eq (s : Setup) (T totalTau n r : ℝ) (h : totalTau ≠ 0) :
    rateCbBsw s T totalTau n r =
      ((totalTau - (tauSetup s T + tauSetup s T + (2 * n - 1) * T)) / totalTau) * r := by
  rw [rateCbBsw, prelogTerm, tauAlg]
  field_simp

/-- Witness for the amended claim C7 at a concrete input. -/
theorem rateCbBsw_eq_witness :
    rateCbBsw Setup.obCC 1 10 0 0 =
      ((10 - (tauSetup Setup.obCC 1 + tauSetup Setup.obCC 1 + (2 * 0 - 1) * 1)) / 10) * 0 :=
  rateCbBsw_eq Setup.obCC 1 10 0 0 (by norm_num)

/-! ## Pilot noise (cb_bsw_flexible_vs_minimum_snr.py lines 103-119)

`noise_ = randn + 1j * randn`, `var = noise_power / num_pilots / 2`,
`bsw_noise_ = np.sqrt(var) * noise_`. -/

/-- The scale factor `np.sqrt(noise_power / num_pilots / 2)` applied to the
standard complex Gaussian draw. -/
noncomputable def bswNoiseScale (noisePower numPilots : ℝ) : ℝ :=
  Real.sqrt (noisePower / numPilots / 2)

/-- One entry of `bsw_noise_`: the scaled standard complex Gaussian draw,
with `nr` and `ni` the unit-variance real and imaginary draws. -/
noncomputable def bswNoise (noisePower numPilots nr ni : ℝ) : ℂ :=
  (bswNoiseScale noisePower numPilots : ℝ) * (nr + ni * Complex.I)

/-- Claim C8: the pilot noise is a standard complex Gaussian draw multiplied
by `sqrt(noise_power / num_pilots / 2)`, so each real component of the added
noise is the unit-variance draw scaled by a factor whose square is
`noise_power / (2 * num_pilots)` — i.e. each component has variance
`noise_power / (2 * num_pilots)`. -/
theorem bswNoise_component_variance (noisePower numPilots : ℝ)
    (h0 : 0 ≤ noisePower) (h1 : 0 < numPilots) (nr ni : ℝ) :
    (bswNoise noisePower numPilots nr ni).re = bswNoiseScale noisePower numPilots * nr ∧
    (bswNoise noisePower numPilots nr ni).im = bswNoiseScale noisePower numPilots * ni ∧
    bswNoiseScale noisePower numPilots ^ 2 = noisePower / (2 * numPilots) := by
  refine ⟨?_, ?_, ?_⟩
  · simp [bswNoise, Complex.mul_re, Complex.mul_im, Complex.add_re, Complex.add_im,
      Complex.ofReal_re, Complex.ofReal_im, Complex.I_re, Complex.I_im]
  · simp [bswNoise, Complex.mul_re, Complex.mul_im, Complex.add_re, Complex.add_im,
      Complex.ofReal_re, Complex.ofReal_im, Complex.I_re, Complex.I_im]
  · rw [bswNoiseScale, Real.sq_sqrt (by positivity), div_div, mul_comm]

/-- Witness for claim C8 at a concrete input. -/
theorem bswNoise_component_variance_witness :
    (bswNoise 1 1 0 0).re = bswNoiseScale 1 1 * 0 ∧
    (bswNoise 1 1 0 0).im = bswNoiseScale 1 1 * 0 ∧
    bswNoiseScale 1 1 ^ 2 = 1 / (2 * 1) :=
  bswNoise_component_variance 1 1 (by norm_num) (by norm_num) 0 0

/-! ## pointing (environment.py lines 123-137)

`k = np.arange(0, k_max)`; for each grating-lobe order `k` the direction
cosines are `k * 2 * wavelength / sqrt(num_els_h) / dist_els_h` plus the
main-lobe terms `cos(az) * sin(el)` and `sin(az) * sin(el)`;
`z_pointing = sqrt(1 - x^2 - y^2)` and the floor point is
`z_size / z_pointing * (x, y, z)` per lobe. -/

/-- The fields of the environment that `pointing` reads. -/
structure PointEnv where
  wavelength : ℝ
  num_els_h : ℝ
  dist_els_h : ℝ
  z_size : ℝ

/-- The method `RisProtocolEnv.pointing`: the list of floor points for lobe orders
`k = 0, ..., k_max - 1`. -/
noncomputable def pointing (env : PointEnv) (azimuth_angle elevation_angle : ℝ)
    (k_max : ℕ) : List (ℝ × ℝ × ℝ) :=
  (List.range k_max).map (fun (k : ℕ) =>
    let x_pointing := (k : ℝ) * 2 * env.wavelength / Real.sqrt env.num_els_h /
      env.dist_els_h + Real.cos azimuth_angle * Real.sin elevation_angle
    let y_pointing := (k : ℝ) * 2 * env.wavelength / Real.sqrt env.num_els_h /
      env.dist_els_h + Real.sin azimuth_angle * Real.sin elevation_angle
    let z_pointing := Real.sqrt (1 - x_pointing ^ 2 - y_pointing ^ 2)
    (env.z_size / z_pointing * x_pointing,
     env.z_size / z_pointing * y_pointing,
     env.z_size / z_pointing * z_pointing))

/-- Claim C3: for every azimuth and every elevation strictly between 0 and
π/2, `pointing(azimuth, elevation, k_max=1)` is the single floor point whose
horizontal offset from the RIS origin is
`z_size * tan(elevation) * (cos(azimuth), sin(azimuth))` and whose vertical
coordinate is `z_size`. -/
theorem pointing_main_lobe (env : PointEnv) (azimuth elevation : ℝ)
    (h0 : 0 < elevation) (h2 : elevation < Real.pi / 2) :
    pointing env azimuth elevation 1 =
      [(env.z_size * Real.tan elevation * Real.cos azimuth,
        env.z_size * Real.tan elevation * Real.sin azimuth,
        env.z_size)] := by
  have hcos : 0 < Real.cos elevation :=
    Real.cos_pos_of_mem_Ioo ⟨by nlinarith [Real.pi_pos], h2⟩
  have hkey : 1 - (Real.cos azimuth * Real.sin elevation) ^ 2 -
      (Real.sin azimuth * Real.sin elevation) ^ 2 = Real.cos elevation ^ 2 := by
    have ha := Real.sin_sq_add_cos_sq azimuth
    have hs := Real.sin_sq_add_cos_sq elevation
    linear_combination (-(Real.sin elevation ^ 2)) * ha - hs
  have hne : Real.cos elevation ≠ 0 := hcos.ne'
  simp only [pointing, show List.range 1 = [0] from rfl, List.map_cons, List.map_nil,
    Nat.cast_zero, zero_mul, zero_div, zero_add]
  rw [hkey, Real.sqrt_sq hcos.le]
  simp only [List.cons.injEq, and_true, Prod.mk.injEq]
  refine ⟨?_, ?_, ?_⟩
  · rw [Real.tan_eq_sin_div_cos]
    field_simp
    ring
  · rw [Real.tan_eq_sin_div_cos]
    field_simp
    ring
  · field_simp

/-- Witness for claim C3 at azimuth 0 and elevation π/4. -/
theorem pointing_main_lobe_witness :
    pointing ⟨1, 1, 1, 1⟩ 0 (Real.pi / 4) 1 =
      [((1 : ℝ) * Real.tan (Real.pi / 4) * Real.cos 0,
        (1 : ℝ) * Real.tan (Real.pi / 4) * Real.sin 0,
        (1 : ℝ))] :=
  pointing_main_lobe ⟨1, 1, 1, 1⟩ 0 (Real.pi / 4)
    (by positivity) (by linarith [Real.pi_pos])

/-! ## pos2beta (environment.py lines 140-152)

The path loss is accumulated additively in the dB domain by the four
statements `pl = ...; pl += ...; pl += ...; pl += ...` and converted to
linear scale by the single statement `10 ** (-pl / 10)`. -/

/-- The fields of the environment that `pos2beta` reads. -/
structure BetaEnv where
  pl_exponent : ℝ
  dist_br : ℝ
  bs_gain : ℝ
  ue_gain : ℝ
  wavelength : ℝ
  ref_dist : ℝ

/-- The method `RisProtocolEnv.pos2beta`, with the dB-domain accumulation written as the
same sequence of additions as in the source. -/
noncomputable def pos2beta (env : BetaEnv) (x : ℝ × ℝ × ℝ) : ℝ :=
  let pl0 := 10 * env.pl_exponent * Real.logb 10 (env.dist_br * norm3 x)
  let pl1 := pl0 + -(env.bs_gain + env.ue_gain)
  let pl2 := pl1 + -(40 * Real.logb 10 (env.wavelength / 4 / Real.pi / env.ref_dist))
  let pl3 := pl2 + -(20 * env.pl_exponent * Real.logb 10 env.ref_dist)
  (10 : ℝ) ^ (-pl3 / 10)

/-- The additive dB-domain formula in the words of claim C6: a single sum
formed before the one exponentiation back to linear scale. -/
noncomputable def pos2betaFormula (env : BetaEnv) (x : ℝ × ℝ × ℝ) : ℝ :=
  (10 : ℝ) ^ (-(10 * env.pl_exponent * Real.logb 10 (env.dist_br * norm3 x)
      - (env.bs_gain + env.ue_gain)
      - 40 * Real.logb 10 (env.wavelength / (4 * Real.pi * env.ref_dist))
      - 20 * env.pl_exponent * Real.logb 10 env.ref_dist) / 10)

/-- Claim C6: for every position with nonzero norm, `pos2beta` returns
`10^(-pl/10)` where `pl` is exactly the additive dB-domain sum
`10·n·log10(dist_br·‖x‖) - (bs_gain + ue_gain) - 40·log10(λ/(4π·d0))
- 20·n·log10(d0)`, exponentiated once at the end. -/
theorem pos2beta_additive_form (env : BetaEnv) (x : ℝ × ℝ × ℝ)
    (h : 0 < norm3 x) : pos2beta env x = pos2betaFormula env x := by
  simp only [pos2beta, pos2betaFormula]
  have harg : env.wavelength / 4 / Real.pi / env.ref_dist =
      env.wavelength / (4 * Real.pi * env.ref_dist) := by
    rw [div_div, div_div, ← mul_assoc]
  rw [harg]
  congr 1

/-- Witness for claim C6 at the unit position `(1, 0, 0)`. -/
theorem pos2beta_additive_form_witness :
    pos2beta ⟨2, 1, 1, 1, 1, 1⟩ (1, 0, 0) = pos2betaFormula ⟨2, 1, 1, 1, 1, 1⟩ (1, 0, 0) :=
  pos2beta_additive_form ⟨2, 1, 1, 1, 1, 1⟩ (1, 0, 0)
    (by rw [norm3]; norm_num)

/-! ## DFT codebook (cb_bsw_flexible_vs_minimum_snr.py lines 78-86)

`fundamental_freq = np.exp(-1j * 2 * np.pi / env.ris.num_els)`;
`DFT = fundamental_freq ** (J * K)` over the meshgrid of element indices;
`DFT_norm = DFT / np.sqrt(env.ris.num_els)`. -/

/-- The script's `fundamental_freq`, the principal N-th root of unity used by the script. -/
noncomputable def fundamental_freq (N : ℕ) : ℂ :=
  Complex.exp (-Complex.I * 2 * Real.pi / N)

/-- Entry (j, k) of the normalized DFT codebook matrix `DFT_norm`. -/
noncomputable def DFT_norm (N : ℕ) (j k : Fin N) : ℂ :=
  fundamental_freq N ^ ((j : ℕ) * (k : ℕ)) / (Real.sqrt N : ℂ)

lemma fundamental_freq_eq (N : ℕ) :
    fundamental_freq N = Complex.exp (((-(2 * Real.pi / N) : ℝ) : ℂ) * Complex.I) := by
  rw [fundamental_freq]
  congr 1
  push_cast
  ring

lemma norm_fundamental_freq (N : ℕ) : ‖fundamental_freq N‖ = 1 := by
  rw [fundamental_freq_eq, Complex.norm_eq_abs]
  exact Complex.abs_exp_ofReal_mul_I _

lemma fundamental_freq_ne_zero (N : ℕ) : fundamental_freq N ≠ 0 :=
  Complex.exp_ne_zero _

lemma conj_fundamental_freq (N : ℕ) :
    (starRingEnd ℂ) (fundamental_freq N) = (fundamental_freq N)⁻¹ := by
  rw [fundamental_freq_eq, ← Complex.exp_conj, ← Complex.exp_neg]
  congr 1
  rw [map_mul, Complex.conj_ofReal, Complex.conj_I]
  ring

/-- Claim C4: the codebook is the N-by-N matrix with entry (j,k) equal to
`exp(-2*pi*i/N)^(j*k) / sqrt(N)`; every row has squared Euclidean norm
exactly 1, and any two distinct rows are orthogonal, so the matrix is
unitary up to scaling. -/
theorem DFT_norm_unitary (N : ℕ) (j j' : Fin N) :
    (∑ k : Fin N, ‖DFT_norm N j k‖ ^ 2 = 1) ∧
    (j ≠ j' → ∑ k : Fin N, DFT_norm N j k * (starRingEnd ℂ) (DFT_norm N j' k) = 0) := by
  have hN : 0 < N := j.pos
  constructor
  · have hterm : ∀ k : Fin N, ‖DFT_norm N j k‖ ^ 2 = 1 / N := by
      intro k
      rw [DFT_norm, norm_div, norm_pow, norm_fundamental_freq, one_pow,
        Complex.norm_eq_abs, Complex.abs_ofReal,
        abs_of_nonneg (Real.sqrt_nonneg _)]
      rw [one_div, inv_pow, Real.sq_sqrt (Nat.cast_nonneg N), one_div]
    rw [Finset.sum_congr rfl (fun k _ => hterm k), Finset.sum_const, Finset.card_univ,
      Fintype.card_fin, nsmul_eq_mul, mul_one_div, div_self]
    exact Nat.cast_ne_zero.mpr hN.ne'
  · intro hjj
    have hNR : (N : ℝ) ≠ 0 := Nat.cast_ne_zero.mpr hN.ne'
    have hω0 : fundamental_freq N ≠ 0 := fundamental_freq_ne_zero N
    have hterm : ∀ k : Fin N,
        DFT_norm N j k * (starRingEnd ℂ) (DFT_norm N j' k) =
          (fundamental_freq N ^ ((j : ℤ) - (j' : ℤ))) ^ (k : ℕ) / N := by
      intro k
      rw [DFT_norm, DFT_norm, map_div₀, map_pow, conj_fundamental_freq, Complex.conj_ofReal,
        div_mul_div_comm]
      congr 1
      · rw [inv_pow, ← zpow_natCast (fundamental_freq N) ((j : ℕ) * (k : ℕ)),
          ← zpow_natCast (fundamental_freq N) ((j' : ℕ) * (k : ℕ)), ← zpow_neg,
          ← zpow_add₀ hω0, ← zpow_natCast (fundamental_freq N ^ ((j : ℤ) - (j' : ℤ))) (k : ℕ),
          ← zpow_mul]
        congr 1
        push_cast
        ring
      · rw [← Complex.ofReal_mul, Real.mul_self_sqrt (Nat.cast_nonneg N)]
        push_cast
        rfl
    rw [Finset.sum_congr rfl (fun k _ => hterm k), ← Finset.sum_div]
    have hζN : (fundamental_freq N ^ ((j : ℤ) - (j' : ℤ))) ^ N = 1 := by
      rw [← zpow_natCast (fundamental_freq N ^ ((j : ℤ) - (j' : ℤ))) N, ← zpow_mul,
        fundamental_freq_eq, ← Complex.exp_int_mul]
      have harg : ((((j : ℤ) - (j' : ℤ)) * N : ℤ) : ℂ) *
          (((-(2 * Real.pi / N) : ℝ) : ℂ) * Complex.I) =
          (((j' : ℤ) - (j : ℤ) : ℤ) : ℂ) * (2 * Real.pi * Complex.I) := by
        push_cast
        have hNC : (N : ℂ) ≠ 0 := Nat.cast_ne_zero.mpr hN.ne'
        field_simp
        ring
      rw [harg, Complex.exp_int_mul_two_pi_mul_I]
    have hζ1 : fundamental_freq N ^ ((j : ℤ) - (j' : ℤ)) ≠ 1 := by
      intro h1
      rw [fundamental_freq_eq, ← Complex.exp_int_mul, Complex.exp_eq_one_iff] at h1
      obtain ⟨m, hm⟩ := h1
      have him := congrArg Complex.im hm
      simp [Complex.mul_im, Complex.ofReal_re, Complex.ofReal_im, Complex.I_re,
        Complex.I_im, Complex.add_im, Complex.add_re] at him
      field_simp at him
      have h2pi : (2 * Real.pi) ≠ 0 := by positivity
      have hR : (((j' : ℕ) : ℝ)) - ((j : ℕ) : ℝ) = ((m : ℝ) * N) := by
        apply mul_right_cancel₀ h2pi
        linear_combination him
      have hZ : ((j' : ℕ) : ℤ) - ((j : ℕ) : ℤ) = m * N := by exact_mod_cast hR
      have hd0 : ((j' : ℕ) : ℤ) - ((j : ℕ) : ℤ) ≠ 0 := by
        intro hh
        apply hjj
        apply Fin.ext
        omega
      have hdvd : (N : ℤ) ∣ (((j' : ℕ) : ℤ) - ((j : ℕ) : ℤ)) := ⟨m, by rw [hZ]; ring⟩
      have habs := Int.le_of_dvd (abs_pos.mpr hd0) ((dvd_abs _ _).mpr hdvd)
      have hj1 : ((j : ℕ) : ℤ) < N := by exact_mod_cast j.isLt
      have hj2 : ((j' : ℕ) : ℤ) < N := by exact_mod_cast j'.isLt
      have hlt : |((j' : ℕ) : ℤ) - ((j : ℕ) : ℤ)| < N := by
        rw [abs_lt]
        omega
      linarith
    rw [Fin.sum_univ_eq_sum_range
        (fun i => (fundamental_freq N ^ ((j : ℤ) - (j' : ℤ))) ^ i) N,
      geom_sum_eq hζ1, hζN, sub_self, zero_div, zero_div]

/-- Witness for claim C4 on the 2-by-2 codebook, rows 0 and 1. -/
theorem DFT_norm_unitary_witness :
    (∑ k : Fin 2, ‖DFT_norm 2 0 k‖ ^ 2 = 1) ∧
    ((0 : Fin 2) ≠ 1 ∧
      ∑ k : Fin 2, DFT_norm 2 0 k * (starRingEnd ℂ) (DFT_norm 2 1 k) = 0) :=
  ⟨(DFT_norm_unitary 2 0 1).1, by decide, (DFT_norm_unitary 2 0 1).2 (by decide)⟩

/-! ## compute_afgain (environment.py lines 155-187) -/

/-- The constant `scipy.constants.speed_of_light`. -/
def speed_of_light : ℝ := 299792458

/-- The fields of the environment that `compute_afgain` reads (one resource
block, as assumed by the slice assignment in the source). -/
structure AfEnv where
  num_els : ℕ
  actual_conf : Fin num_els → ℂ
  el_pos : Fin num_els → ℝ × ℝ × ℝ
  freq : ℝ
  dist_br : ℝ
  bs_versor : ℝ × ℝ × ℝ

/-- The per-point array-factor gain: identical body to both the full-chunk
and the final partial-chunk assignment in the source. -/
noncomputable def afGainPoint (env : AfEnv) (x : ℝ × ℝ × ℝ) : ℝ :=
  let pos_dist := norm3 x
  let pos_versor := (x.1 / pos_dist, x.2.1 / pos_dist, x.2.2 / pos_dist)
  ‖(∑ e : Fin env.num_els, env.actual_conf e *
      Complex.exp (-Complex.I * 2 * Real.pi / speed_of_light *
        (((env.freq * (pos_dist - dot3 pos_versor (env.el_pos e))) : ℝ) +
         ((env.freq * (env.dist_br - dot3 env.bs_versor (env.el_pos e))) : ℝ)))) /
    (env.num_els : ℂ)‖ ^ 2

/-- The first `m` full chunks of size `c` written by the loop
`for i in np.arange(iter)`. -/
def chunkConcat {α β : Type} (g : α → β) (c : ℕ) (x : List α) : ℕ → List β
  | 0 => []
  | m + 1 => chunkConcat g c x m ++ ((x.drop (m * c)).take c).map g

/-- The method `RisProtocolEnv.compute_afgain`: gains are computed in chunks of
`n = int(1e6)` points; the final partial chunk is handled by the `n2 > 0`
branch.  When the input is empty both branches are skipped and the final
`del phase_shift_ru, ...` statement raises an unhandled error, because
`phase_shift_ru` was never assigned. -/
noncomputable def compute_afgain (env : AfEnv) (x : List (ℝ × ℝ × ℝ)) :
    Except String (List ℝ) :=
  let N := x.length
  let n := 1000000
  let iter := N / n
  let n2 := N - iter * n
  let af_gain := chunkConcat (afGainPoint env) n x iter ++
    (if 0 < n2 then (x.drop (iter * n)).map (afGainPoint env) else [])
  if iter = 0 ∧ n2 = 0 then
    Except.error "UnboundLocalError: local variable phase_shift_ru referenced before assignment"
  else Except.ok af_gain

lemma take_add_split {α : Type} (x : List α) (a c : ℕ) :
    x.take (a + c) = x.take a ++ (x.drop a).take c := by
  rw [List.take_drop a c x]
  conv_lhs => rw [← List.take_append_drop a (x.take (a + c))]
  rw [List.take_take, min_eq_left (Nat.le_add_right a c)]

lemma chunkConcat_eq {α β : Type} (g : α → β) (c : ℕ) (x : List α) :
    ∀ m, m * c ≤ x.length → chunkConcat g c x m = (x.take (m * c)).map g := by
  intro m
  induction m with
  | zero => simp [chunkConcat]
  | succ m ih =>
    intro h
    have hm : m * c ≤ x.length :=
      le_trans (Nat.mul_le_mul_right c (Nat.le_succ m)) h
    rw [chunkConcat, ih hm, Nat.succ_mul, take_add_split, List.map_append]

lemma compute_afgain_ok (env : AfEnv) (x : List (ℝ × ℝ × ℝ)) (hx : x ≠ []) :
    compute_afgain env x = Except.ok (x.map (afGainPoint env)) := by
  have hN : 0 < x.length := List.length_pos.mpr hx
  have hiter_le : (x.length / 1000000) * 1000000 ≤ x.length := Nat.div_mul_le_self _ _
  simp only [compute_afgain]
  by_cases hn2 : x.length - (x.length / 1000000) * 1000000 = 0
  · have hiter0 : x.length / 1000000 ≠ 0 := by
      intro h0
      rw [h0] at hn2
      omega
    have heq : (x.length / 1000000) * 1000000 = x.length := by omega
    rw [if_neg (by tauto), chunkConcat_eq _ _ _ _ hiter_le,
      if_neg (by omega), heq, List.take_length, List.append_nil]
  · rw [if_neg (by tauto), chunkConcat_eq _ _ _ _ hiter_le,
      if_pos (Nat.pos_of_ne_zero hn2), ← List.map_append, List.take_append_drop]

/-- Claim C1: for every nonempty point set and every loaded configuration of
unit-modulus entries, `compute_afgain` computed with the fixed chunks of at
most 10^6 points (final partial chunk handled separately) returns exactly
the per-point gains of the whole set evaluated in a single batch: batching
never changes any output value. -/
theorem compute_afgain_batching (env : AfEnv) (x : List (ℝ × ℝ × ℝ)) (hx : x ≠ [])
    (hconf : ∀ e, ‖env.actual_conf e‖ = 1) :
    compute_afgain env x = Except.ok (x.map (afGainPoint env)) :=
  compute_afgain_ok env x hx

/-- Claim C10: on an input of zero points both the chunk loop and the
partial-chunk branch are skipped, so the trailing `del` statement raises an
unhandled error on the never-assigned `phase_shift_ru`; on any input of at
least one point the function returns a gain array of exactly the input
length. -/
theorem compute_afgain_empty_error (env : AfEnv) :
    (∃ msg, compute_afgain env [] = Except.error msg) ∧
    (∀ x : List (ℝ × ℝ × ℝ), x ≠ [] →
      ∃ g, compute_afgain env x = Except.ok g ∧ g.length = x.length) := by
  constructor
  · exact ⟨_, rfl⟩
  · intro x hx
    exact ⟨_, compute_afgain_ok env x hx, by rw [List.length_map]⟩

/-- A concrete one-element environment with the identity configuration. -/
def envW : AfEnv := ⟨1, fun _ => 1, fun _ => (0, 0, 0), 1, 1, (0, 0, 0)⟩

theorem compute_afgain_batching_witness :
    compute_afgain envW [(1, 0, 0)] =
      Except.ok ([((1 : ℝ), (0 : ℝ), (0 : ℝ))].map (afGainPoint envW)) :=
  compute_afgain_batching envW [(1, 0, 0)] (by simp)
    (fun e => by simp [envW])

theorem compute_afgain_empty_error_witness :
    (∃ msg, compute_afgain envW [] = Except.error msg) ∧
    (∃ g, compute_afgain envW [(1, 0, 0)] = Except.ok g ∧
      g.length = [((1 : ℝ), (0 : ℝ), (0 : ℝ))].length) :=
  ⟨(compute_afgain_empty_error envW).1,
   (compute_afgain_empty_error envW).2 [(1, 0, 0)] (by simp)⟩

end RisControl

